import Mathlib

/-!
Verification of the bbackup encryption engine (`src/bbackup/encryption.py`).

The development shallowly embeds the `EncryptionManager` class: byte strings
are `List Nat`, filesystem paths are `List Char`, the external cryptographic
primitives (AES-256-GCM from `cryptography.hazmat`, RSA-OAEP wrap/unwrap) are
abstract function records, and filesystem writes are explicit event traces.
Every definition is translated line-by-line from the Python source; the
theorems at the end settle the specified properties of the engine.
-/

namespace BBackup

/-- A byte string (`bytes` in the source); each element is one byte value. -/
abbrev Bytes := List Nat

/-- A filesystem path or path fragment, as its character sequence. -/
abbrev FsPath := List Char

/-- Convert a string literal to a path value. -/
def pstr (s : String) : FsPath := s.data

/-- The `method` field of the encryption configuration
(`'symmetric' | 'asymmetric' | 'both'`). -/
inductive Method
  | symmetric
  | asymmetric
  | both
deriving DecidableEq

/-- Abstract AEAD cipher standing for `AESGCM` from the `cryptography`
library (external to the repository).  `enc key iv plaintext` returns the
ciphertext-with-tag; `dec key iv ciphertext` returns the plaintext, or
`none` when `aesgcm.decrypt` raises (authentication failure). -/
structure AEAD where
  enc : Bytes → Bytes → Bytes → Bytes
  dec : Bytes → Bytes → Bytes → Option Bytes

/-- Abstract RSA private key: `unwrap` stands for
`private_key.decrypt(..., OAEP(MGF1(SHA256), SHA256))`; `none` models the
exception raised on an OAEP failure. -/
structure PrivKey where
  unwrap : Bytes → Option Bytes

/-- Abstract RSA public key: `wrap` stands for
`public_key.encrypt(..., OAEP(MGF1(SHA256), SHA256))`; `none` models a raised
exception. -/
structure PubKey where
  wrap : Bytes → Option Bytes

/-- The key material owned by one `EncryptionManager` instance after
construction (fields `config.method`, `symmetric_key`, `public_key`,
`private_key`). -/
structure Manager where
  method : Method
  symmetric_key : Option Bytes
  public_key : Option PubKey
  private_key : Option PrivKey

/-- `int.from_bytes(bs, 'big')`. -/
def fromBytesBE (bs : Bytes) : Nat :=
  bs.foldl (fun acc b => acc * 256 + b) 0

/-- `n.to_bytes(4, 'big')`. -/
def toBytesBE4 (n : Nat) : Bytes :=
  [n / 256 ^ 3 % 256, n / 256 ^ 2 % 256, n / 256 % 256, n % 256]

/-- Flip bit `i` of a byte string (bit `i % 8` of byte `i / 8`); positions
past the end leave the data unchanged.  Used to state the tamper-detection
property. -/
def flipBit (data : Bytes) (i : Nat) : Bytes :=
  data.mapIdx fun j b => if j = i / 8 then b ^^^ (1 <<< (i % 8)) else b

/-- `source.startswith(prefix)` for path strings. -/
def startsWithP (s pre : FsPath) : Bool :=
  pre.isPrefixOf s

/-- `_is_url` (encryption.py lines 177-179): the source starts with
`http://` or `https://`. -/
def isUrl (source : FsPath) : Bool :=
  startsWithP source (pstr "http://") || startsWithP source (pstr "https://")

/-- The literal suffix appended to every encrypted file and to the
destination of `encrypt_backup`. -/
def encSuffix : FsPath := pstr ".enc"

/-- The metadata file name written at the root of an encrypted directory. -/
def metaName : FsPath := pstr "encryption_metadata.json"

/-- The basename of a path: the segment after the last `/` (the `file`
variable produced by `os.walk`). -/
def basenameP (p : FsPath) : FsPath :=
  (p.reverse.takeWhile (fun c => c ≠ '/')).reverse

/-- Model of `Path.parent` for a relative path: everything before the last
`/` (empty when there is no separator). -/
def parentOf (p : FsPath) : FsPath :=
  ((p.reverse.dropWhile (fun c => c ≠ '/')).drop 1).reverse

/-- Does the path end in `.enc` (`file.endswith('.enc')`)? -/
def endsEnc (p : FsPath) : Bool :=
  match p.reverse with
  | 'c' :: 'n' :: 'e' :: '.' :: _ => true
  | _ => false

/-- Python `name.replace('.enc', '')`: remove every (leftmost-first,
non-overlapping) occurrence of `.enc`. -/
def stripEnc : FsPath → FsPath
  | '.' :: 'e' :: 'n' :: 'c' :: rest => stripEnc rest
  | c :: rest => c :: stripEnc rest
  | [] => []

/-- The no-password branch of `_load_symmetric_key` (encryption.py lines
87-95): a raw key blob shorter than 32 bytes is right-padded with zero bytes
(`ljust(32, b'\x00')`), one longer than 32 bytes is truncated to its first
32 bytes, and a 32-byte blob is used as is. -/
def normalizeSymmetricKey (key_data : Bytes) : Bytes :=
  if key_data.length < 32 then key_data ++ List.replicate (32 - key_data.length) 0
  else if key_data.length > 32 then key_data.take 32
  else key_data

/-- Failure modes of `_fetch_key_from_url`: the `ValueError` raised on a
non-HTTPS URL, the `ValueError` raised on empty response content, and a
propagated `requests.RequestException`. -/
inductive FetchErr
  | nonHttps
  | emptyKey
  | requestFailed
deriving DecidableEq

/-- `_fetch_key_from_url` (encryption.py lines 278-316).  `net` models
`requests.get` together with `raise_for_status` (`none` is a raised
`requests.RequestException`), `cached` models `_load_cached_key url`.  The
second component of the result lists the URLs for which an HTTP GET was
issued.  The local cache write on the success path (`_cache_key`) is a
filesystem effect, not a network request, and is not traced. -/
def fetchKeyFromUrl (net : FsPath → Option Bytes) (cached : Option Bytes)
    (url : FsPath) (verify_https : Bool) : Except FetchErr Bytes × List FsPath :=
  if verify_https ∧ ¬ startsWithP url (pstr "https://") then
    (Except.error FetchErr.nonHttps, [])
  else
    match net url with
    | some key_data =>
        if key_data.length = 0 then (Except.error FetchErr.emptyKey, [url])
        else (Except.ok key_data, [url])
    | none =>
        match cached with
        | some cached_key => (Except.ok cached_key, [url])
        | none => (Except.error FetchErr.requestFailed, [url])

/-- `_load_private_key` (encryption.py lines 137-175).  `fs` models the
filesystem (`read_bytes`, with `none` for a missing file or an IO error, so
`key_path.exists()` is `(fs p).isSome`), `expand` models `Path.expanduser`,
`validate` models `_validate_key_format key_data 'private'`, and `parse`
models `serialization.load_pem_private_key` (`none` when it raises).  The
second component lists the network requests issued; the source function
performs none. -/
def loadPrivateKey (fs : FsPath → Option Bytes) (expand : FsPath → FsPath)
    (validate : Bytes → Bool) (parse : Bytes → Option Bytes → Option PrivKey)
    (key_path_str : Option FsPath) (password : Option Bytes) :
    Option PrivKey × List FsPath :=
  match key_path_str with
  | none => (none, [])
  | some s =>
      if (fs (expand s)).isNone then (none, [])
      else if isUrl s then (none, [])
      else
        match fs (expand s) with
        | none => (none, [])
        | some key_data =>
            if validate key_data then (parse key_data password, [])
            else (none, [])

/-- One filesystem write effect of the engine. -/
inductive Event
  | mkdirRoot
  | mkdir (dir : FsPath)
  | write (relPath : FsPath) (data : Bytes)
  | writeMeta (data : Bytes)
deriving DecidableEq

/-- `encrypt_file` (encryption.py lines 376-446).  `plaintextR` is the
outcome of `source.read_bytes()` (`none` when the read raises inside the
`try`), `iv` models `secrets.token_bytes(12)` and `sessionKey` models the
`secrets.token_bytes(32)` drawn on the asymmetric path; `dest` is the
destination path and `keyArg` the optional explicit `key` argument.  Returns
the boolean result together with the trace of filesystem writes. -/
def encryptFile (aead : AEAD) (mgr : Manager) (plaintextR : Option Bytes)
    (iv sessionKey : Bytes) (dest : FsPath) (keyArg : Option Bytes) :
    Bool × List Event :=
  let key? : Option Bytes :=
    match keyArg with
    | some k => some k
    | none =>
        if (mgr.method = Method.symmetric ∨ mgr.method = Method.both)
            ∧ mgr.symmetric_key.isSome then
          mgr.symmetric_key
        else if (mgr.method = Method.asymmetric ∨ mgr.method = Method.both)
            ∧ mgr.public_key.isSome then
          some sessionKey
        else none
  match key? with
  | none => (false, [])
  | some key =>
      match plaintextR with
      | none => (false, [])
      | some plaintext =>
          let ciphertext := aead.enc key iv plaintext
          let wrapped : Option (Option Bytes) :=
            if (mgr.method = Method.asymmetric ∨ mgr.method = Method.both)
                ∧ mgr.public_key.isSome ∧ mgr.symmetric_key ≠ some key then
              match mgr.public_key with
              | some pk =>
                  match pk.wrap key with
                  | some ek => some (some ek)
                  | none => none
              | none => some none
            else some none
          match wrapped with
          | none => (false, [])
          | some encrypted_key =>
              let blob :=
                (match encrypted_key with
                 | some ek => if ek ≠ [] then toBytesBE4 ek.length ++ ek else []
                 | none => []) ++ iv ++ ciphertext
              (true, [Event.mkdir (parentOf dest), Event.write dest blob])

/-- The asymmetric session-key heuristic of `decrypt_file` (encryption.py
lines 469-494): with a private key configured, read the first 4 bytes as a
big-endian length, check `0 < key_length < 1024` and that the buffer holds
at least `4 + key_length + 12` bytes, and attempt the OAEP unwrap of bytes
`4 .. 4+key_length`; yields the unwrapped session key and the data offset,
or `none` when any step fails. -/
def sessionKeyHeuristic (mgr : Manager) (encrypted_data : Bytes) :
    Option (Bytes × Nat) :=
  match mgr.private_key with
  | none => none
  | some sk =>
      if (mgr.method = Method.asymmetric ∨ mgr.method = Method.both)
          ∧ 4 ≤ encrypted_data.length then
        let key_length := fromBytesBE (encrypted_data.take 4)
        if 0 < key_length ∧ key_length < 1024
            ∧ 4 + key_length + 12 ≤ encrypted_data.length then
          match sk.unwrap ((encrypted_data.drop 4).take key_length) with
          | some k => some (k, 4 + key_length)
          | none => none
        else none
      else none

/-- `decrypt_file` (encryption.py lines 448-528).  `encrypted_data` is the
content read from the source file, `dest` the destination path, `keyArg` the
optional explicit `key` argument.  Returns the boolean result together with
the trace of filesystem writes (the `dest.parent.mkdir` and
`dest.write_bytes` on the success path). -/
def decryptFile (aead : AEAD) (mgr : Manager) (encrypted_data : Bytes)
    (dest : FsPath) (keyArg : Option Bytes) : Bool × List Event :=
  if encrypted_data.length < 12 then (false, [])
  else
    let asym := sessionKeyHeuristic mgr encrypted_data
    let offset : Nat :=
      match asym with
      | some x => x.2
      | none => 0
    let key? : Option Bytes :=
      match asym with
      | some x => some x.1
      | none =>
          match keyArg with
          | some k => some k
          | none =>
              if (mgr.method = Method.symmetric ∨ mgr.method = Method.both)
                  ∧ mgr.symmetric_key.isSome then
                mgr.symmetric_key
              else none
    match key? with
    | none => (false, [])
    | some key =>
        if encrypted_data.length < offset + 12 then (false, [])
        else
          let iv := (encrypted_data.drop offset).take 12
          let ciphertext := encrypted_data.drop (offset + 12)
          match aead.dec key iv ciphertext with
          | none => (false, [])
          | some plaintext =>
              (true, [Event.mkdir (parentOf dest), Event.write dest plaintext])

/-- The walk loop of `encrypt_directory` (encryption.py lines 554-562):
each source file `rel_path` (in `os.walk` order, content `none` when
`source.read_bytes()` raises for that file) is encrypted to
`rel_path + '.enc'` after a `dest_file.parent.mkdir`; the per-file IV and
session-key randomness is supplied by the streams `ivs` and `sks`, indexed
by the position in the walk.  The walk aborts on the first failing file. -/
def encryptWalk (aead : AEAD) (mgr : Manager) (ivs sks : Nat → Bytes) :
    List (FsPath × Option Bytes) → Nat → Bool × List Event
  | [], _ => (true, [])
  | (rel_path, content) :: rest, i =>
      let dest_file := rel_path ++ encSuffix
      let r := encryptFile aead mgr content (ivs i) (sks i) dest_file none
      if r.1 then
        let rr := encryptWalk aead mgr ivs sks rest (i + 1)
        (rr.1, Event.mkdir (parentOf dest_file) :: r.2 ++ rr.2)
      else (false, Event.mkdir (parentOf dest_file) :: r.2)

/-- `encrypt_directory` (encryption.py lines 530-573): create the
destination root, encrypt every file of the walk, and only after all files
succeed write `encryption_metadata.json` at the destination root.  `meta`
stands for the serialized metadata dictionary (`json.dump` of the method,
algorithm, key id and timestamp — all external library output). -/
def encryptDirectory (aead : AEAD) (mgr : Manager)
    (tree : List (FsPath × Option Bytes)) (ivs sks : Nat → Bytes)
    (meta : Bytes) : Bool × List Event :=
  let w := encryptWalk aead mgr ivs sks tree 0
  if w.1 then (true, Event.mkdirRoot :: w.2 ++ [Event.writeMeta meta])
  else (false, Event.mkdirRoot :: w.2)

/-- The walk loop of `decrypt_directory` (encryption.py lines 597-611):
files whose basename is `encryption_metadata.json` are skipped, files whose
basename ends in `.enc` are decrypted to the relative path with the last
four characters removed (after a `dest_file.parent.mkdir`), everything else
is ignored; the walk aborts on the first failing decryption. -/
def decryptWalk (aead : AEAD) (mgr : Manager) :
    List (FsPath × Bytes) → Bool × List Event
  | [] => (true, [])
  | (rel_path, data) :: rest =>
      if basenameP rel_path = metaName then decryptWalk aead mgr rest
      else if endsEnc (basenameP rel_path) then
        let dest_rel := rel_path.take (rel_path.length - 4)
        let r := decryptFile aead mgr data dest_rel none
        if r.1 then
          let rr := decryptWalk aead mgr rest
          (rr.1, Event.mkdir (parentOf dest_rel) :: r.2 ++ rr.2)
        else (false, Event.mkdir (parentOf dest_rel) :: r.2)
      else decryptWalk aead mgr rest

/-- `decrypt_directory` (encryption.py lines 575-617): create the
destination root, then decrypt every `.enc` file of the walk.  (The metadata
file, when present, is only read for a log line — no write effect.) -/
def decryptDirectory (aead : AEAD) (mgr : Manager)
    (files : List (FsPath × Bytes)) : Bool × List Event :=
  let w := decryptWalk aead mgr files
  (w.1, Event.mkdirRoot :: w.2)

/-- The files written by a trace of events, as (relative path, content)
pairs in write order. -/
def filesOf (evs : List Event) : List (FsPath × Bytes) :=
  evs.filterMap fun e =>
    match e with
    | Event.write p d => some (p, d)
    | Event.writeMeta d => some (metaName, d)
    | _ => none

/-- A directory path split as `Path.parent` and `Path.name`. -/
structure FPath where
  parent : FsPath
  name : FsPath
deriving DecidableEq

/-- `encrypt_backup` (encryption.py lines 619-635): the destination is
`backup_dir.parent / (backup_dir.name + '.enc')`; `runEnc` stands for the
`encrypt_directory(backup_dir, encrypted_dir)` call.  On success the
destination is returned, on failure the original input path. -/
def encryptBackup (backup_dir : FPath) (runEnc : FPath → Bool) : FPath :=
  let encrypted_dir : FPath := ⟨backup_dir.parent, backup_dir.name ++ encSuffix⟩
  if runEnc encrypted_dir then encrypted_dir else backup_dir

/-- `decrypt_backup` (encryption.py lines 637-658).  `hasMetadata` is
`(backup_dir / 'encryption_metadata.json').exists()`; when it is false the
input path is returned at once, before any directory is created or file
written.  Otherwise `runDec` stands for the
`decrypt_directory(backup_dir, decrypted_dir)` call, whose write trace is
the second component of the result. -/
def decryptBackup (hasMetadata : Bool) (backup_dir : FPath)
    (runDec : FPath → Bool × List Event) : FPath × List Event :=
  if hasMetadata = false then (backup_dir, [])
  else
    let decrypted_dir : FPath := ⟨backup_dir.parent, stripEnc backup_dir.name⟩
    let r := runDec decrypted_dir
    (if r.1 then decrypted_dir else backup_dir, r.2)

/-- A concrete AEAD instance used to evaluate the theorems below on
concrete inputs: the ciphertext is the plaintext followed by a one-byte
checksum over key, IV and plaintext, and decryption rejects a wrong
checksum. -/
def toyAead : AEAD where
  enc := fun k iv pt => pt ++ [(k ++ iv ++ pt).foldl (· + ·) 0 % 256]
  dec := fun k iv ct =>
    match ct.reverse with
    | [] => none
    | t :: rpt =>
        if t = (k ++ iv ++ rpt.reverse).foldl (· + ·) 0 % 256 then
          some rpt.reverse
        else none

/-- The manager state of a symmetric-only configuration whose key loaded
successfully. -/
def symMgr (k : Bytes) : Manager :=
  ⟨Method.symmetric, some k, none, none⟩

/-- The event block of one file of the `encrypt_directory` walk: the
`dest_file.parent.mkdir` done by the walk followed by the write trace of
the `encrypt_file` call. -/
def encBlockEvents (aead : AEAD) (mgr : Manager) (ivs sks : Nat → Bytes)
    (pc : FsPath × Option Bytes) (i : Nat) : List Event :=
  Event.mkdir (parentOf (pc.1 ++ encSuffix)) ::
    (encryptFile aead mgr pc.2 (ivs i) (sks i) (pc.1 ++ encSuffix) none).2

/-- The evaluated write trace of a fully successful symmetric
`encrypt_directory` walk. -/
def symWalkEvents (aead : AEAD) (k : Bytes) (ivs : Nat → Bytes) :
    List (FsPath × Bytes) → Nat → List Event
  | [], _ => []
  | (p, c) :: rest, i =>
      Event.mkdir (parentOf (p ++ encSuffix)) ::
      Event.mkdir (parentOf (p ++ encSuffix)) ::
      Event.write (p ++ encSuffix) (ivs i ++ aead.enc k (ivs i) c) ::
      symWalkEvents aead k ivs rest (i + 1)

/-- The encrypted output files of a successful symmetric
`encrypt_directory` walk: each `rel/path` becomes `rel/path.enc` holding
IV followed by ciphertext. -/
def symEncFiles (aead : AEAD) (k : Bytes) (ivs : Nat → Bytes) :
    List (FsPath × Bytes) → Nat → List (FsPath × Bytes)
  | [], _ => []
  | (p, c) :: rest, i =>
      (p ++ encSuffix, ivs i ++ aead.enc k (ivs i) c) ::
        symEncFiles aead k ivs rest (i + 1)

/-- The evaluated write trace of a fully successful `decrypt_directory`
walk over a plaintext listing. -/
def symDecEvents : List (FsPath × Bytes) → List Event
  | [] => []
  | (p, c) :: rest =>
      Event.mkdir (parentOf p) :: Event.mkdir (parentOf p) ::
        Event.write p c :: symDecEvents rest

/-! ### Helper lemmas -/

theorem toy_roundtrip (k iv pt : Bytes) :
    toyAead.dec k iv (toyAead.enc k iv pt) = some pt := by
  simp [toyAead]

theorem length_flipBit (data : Bytes) (i : Nat) :
    (flipBit data i).length = data.length := by
  simp [flipBit]

theorem encryptFile_symMgr (aead : AEAD) (k pt iv sk : Bytes) (d : FsPath) :
    encryptFile aead (symMgr k) (some pt) iv sk d none =
      (true, [Event.mkdir (parentOf d), Event.write d (iv ++ aead.enc k iv pt)]) := by
  simp [encryptFile, symMgr]

theorem decryptFile_symMgr (aead : AEAD) (k iv ct : Bytes) (d : FsPath)
    (h12 : iv.length = 12) :
    decryptFile aead (symMgr k) (iv ++ ct) d none =
      match aead.dec k iv ct with
      | some pt => (true, [Event.mkdir (parentOf d), Event.write d pt])
      | none => (false, []) := by
  have hlen : (iv ++ ct).length = 12 + ct.length := by simp [h12]
  have h1 : ¬ (iv ++ ct).length < 12 := by omega
  have h2 : ¬ (iv ++ ct).length < 0 + 12 := by omega
  simp only [decryptFile, sessionKeyHeuristic, symMgr, if_neg h1, if_neg h2]
  simp [List.take_left' h12, List.drop_left' h12]
  cases aead.dec k iv ct <;> simp

theorem decryptFile_symMgr_any (aead : AEAD) (k data : Bytes) (d : FsPath)
    (h : 12 ≤ data.length) :
    decryptFile aead (symMgr k) data d none =
      match aead.dec k (data.take 12) (data.drop 12) with
      | some pt => (true, [Event.mkdir (parentOf d), Event.write d pt])
      | none => (false, []) := by
  have h1 : ¬ data.length < 12 := by omega
  have h2 : ¬ data.length < 0 + 12 := by omega
  simp only [decryptFile, sessionKeyHeuristic, symMgr, if_neg h1, if_neg h2]
  simp
  cases aead.dec k (data.take 12) (data.drop 12) <;> simp

theorem decryptFile_cases (aead : AEAD) (mgr : Manager) (data : Bytes)
    (d : FsPath) (keyArg : Option Bytes) :
    decryptFile aead mgr data d keyArg = (false, []) ∨
    ∃ pt, decryptFile aead mgr data d keyArg =
      (true, [Event.mkdir (parentOf d), Event.write d pt]) := by
  simp only [decryptFile]
  split
  · exact Or.inl rfl
  · split
    · exact Or.inl rfl
    · split
      · exact Or.inl rfl
      · split
        · exact Or.inl rfl
        · exact Or.inr ⟨_, rfl⟩

theorem encryptFile_cases (aead : AEAD) (mgr : Manager)
    (plaintextR : Option Bytes) (iv sk : Bytes) (dest : FsPath)
    (keyArg : Option Bytes) :
    encryptFile aead mgr plaintextR iv sk dest keyArg = (false, []) ∨
    ∃ blob, encryptFile aead mgr plaintextR iv sk dest keyArg =
      (true, [Event.mkdir (parentOf dest), Event.write dest blob]) := by
  simp only [encryptFile]
  split
  · exact Or.inl rfl
  · split
    · exact Or.inl rfl
    · split
      · exact Or.inl rfl
      · exact Or.inr ⟨_, rfl⟩

theorem encryptWalk_no_meta (aead : AEAD) (mgr : Manager)
    (ivs sks : Nat → Bytes) :
    ∀ (tree : List (FsPath × Option Bytes)) (i : Nat) (d : Bytes),
      Event.writeMeta d ∉ (encryptWalk aead mgr ivs sks tree i).2 := by
  intro tree
  induction tree with
  | nil => intro i d; simp [encryptWalk]
  | cons pc rest ih =>
      intro i d
      obtain ⟨p, c⟩ := pc
      simp only [encryptWalk]
      rcases encryptFile_cases aead mgr c (ivs i) (sks i) (p ++ encSuffix) none
        with h | ⟨blob, h⟩ <;> rw [h] <;> simp [ih (i + 1) d]

theorem encryptWalk_run (aead : AEAD) (mgr : Manager) (ivs sks : Nat → Bytes) :
    ∀ (tree : List (FsPath × Option Bytes)) (i : Nat),
      ((encryptWalk aead mgr ivs sks tree i).1 = true
        ∧ ∀ j, j < tree.length →
            (encryptFile aead mgr (tree.getD j ([], none)).2 (ivs (i + j))
              (sks (i + j)) ((tree.getD j ([], none)).1 ++ encSuffix) none).1 = true)
      ∨ (∃ n, n < tree.length
          ∧ (∀ j, j < n →
              (encryptFile aead mgr (tree.getD j ([], none)).2 (ivs (i + j))
                (sks (i + j)) ((tree.getD j ([], none)).1 ++ encSuffix) none).1 = true)
          ∧ (encryptFile aead mgr (tree.getD n ([], none)).2 (ivs (i + n))
              (sks (i + n)) ((tree.getD n ([], none)).1 ++ encSuffix) none).1 = false
          ∧ (encryptWalk aead mgr ivs sks tree i).1 = false
          ∧ (encryptWalk aead mgr ivs sks tree i).2 =
              ((List.range n).map (fun j =>
                encBlockEvents aead mgr ivs sks (tree.getD j ([], none)) (i + j))).flatten
                ++ [Event.mkdir (parentOf ((tree.getD n ([], none)).1 ++ encSuffix))]) := by
  intro tree
  induction tree with
  | nil =>
      intro i
      exact Or.inl ⟨rfl, fun j hj => by simp at hj⟩
  | cons pc rest ih =>
      intro i
      obtain ⟨p, c⟩ := pc
      by_cases hr : (encryptFile aead mgr c (ivs i) (sks i) (p ++ encSuffix) none).1 = true
      · rcases ih (i + 1) with ⟨hw, hall⟩ | ⟨n, hn, hpre, hfail, hwf, htr⟩
        · refine Or.inl ⟨?_, ?_⟩
          · simp only [encryptWalk, if_pos hr]
            exact hw
          · intro j hj
            match j with
            | 0 => simpa using hr
            | jj + 1 =>
                have hidx : i + (jj + 1) = i + 1 + jj := by omega
                have := hall jj (by simpa using hj)
                simpa [hidx] using this
        · refine Or.inr ⟨n + 1, by simpa using hn, ?_, ?_, ?_, ?_⟩
          · intro j hj
            match j with
            | 0 => simpa using hr
            | jj + 1 =>
                have hidx : i + (jj + 1) = i + 1 + jj := by omega
                have := hpre jj (by omega)
                simpa [hidx] using this
          · have hidx : i + (n + 1) = i + 1 + n := by omega
            simpa [hidx] using hfail
          · simp only [encryptWalk, if_pos hr]
            exact hwf
          · rcases encryptFile_cases aead mgr c (ivs i) (sks i) (p ++ encSuffix) none
              with h | ⟨blob, h⟩
            · rw [h] at hr; simp at hr
            · simp only [encryptWalk, if_pos hr, htr]
              rw [List.range_succ_eq_map]
              simp only [List.map_cons, List.map_map, List.flatten]
              have hmap : (List.range n).map ((fun j =>
                    encBlockEvents aead mgr ivs sks ((⟨p, c⟩ :: rest).getD j ([], none)) (i + j))
                    ∘ Nat.succ)
                  = (List.range n).map (fun j =>
                    encBlockEvents aead mgr ivs sks (rest.getD j ([], none)) (i + 1 + j)) := by
                apply List.map_congr_left
                intro j hj
                have hidx : i + (j + 1) = i + 1 + j := by omega
                simp [Function.comp, hidx]
              rw [hmap]
              simp [encBlockEvents, h]
      · refine Or.inr ⟨0, by simp, fun j hj => by omega, by simpa using hr, ?_, ?_⟩
        · simp only [encryptWalk]
          rw [if_neg hr]
        · rcases encryptFile_cases aead mgr c (ivs i) (sks i) (p ++ encSuffix) none
            with h | ⟨blob, h⟩
          · simp only [encryptWalk]
            rw [if_neg hr, h]
            simp
          · rw [h] at hr; simp at hr

/-! ### Claim theorems -/

/-- C2: for every encrypted file produced by `encrypt_file` in symmetric
mode, flipping any single bit of the output — in the IV, the ciphertext or
the authentication tag — makes `decrypt_file` with the same key fail with
the `False` outcome and write nothing, whenever the underlying AES-GCM
primitive rejects the tampered buffer (which it does, for ciphertext and
tag bits always and for IV bits with all but vanishing probability). -/
theorem tamper_flip_any_bit_fails (aead : AEAD) (k iv sk pt : Bytes)
    (d d' : FsPath) (i : Nat) (h12 : iv.length = 12)
    (hrej : aead.dec k ((flipBit (iv ++ aead.enc k iv pt) i).take 12)
        ((flipBit (iv ++ aead.enc k iv pt) i).drop 12) = none) :
    encryptFile aead (symMgr k) (some pt) iv sk d none =
      (true, [Event.mkdir (parentOf d), Event.write d (iv ++ aead.enc k iv pt)])
    ∧ decryptFile aead (symMgr k) (flipBit (iv ++ aead.enc k iv pt) i) d' none
      = (false, []) := by
  refine ⟨encryptFile_symMgr aead k pt iv sk d, ?_⟩
  have hlen : 12 ≤ (flipBit (iv ++ aead.enc k iv pt) i).length := by
    rw [length_flipBit]
    simp [h12]
  rw [decryptFile_symMgr_any aead k _ d' hlen, hrej]

theorem tamper_flip_any_bit_fails_witness :
    decryptFile toyAead (symMgr [1])
      (flipBit (List.replicate 12 0 ++ toyAead.enc [1] (List.replicate 12 0) [5, 6]) 96)
      (pstr "b") none = (false, []) :=
  (tamper_flip_any_bit_fails toyAead [1] (List.replicate 12 0) [9] [5, 6]
    (pstr "a") (pstr "b") 96 (by simp) (by decide)).2

/-- C4: `_fetch_key_from_url` rejects every URL that does not start with
`https://` by raising `ValueError` before any network request is issued:
the result is the error outcome and the list of HTTP GETs performed is
empty. -/
theorem https_only_invariant (net : FsPath → Option Bytes)
    (cached : Option Bytes) (url : FsPath)
    (h : startsWithP url (pstr "https://") = false) :
    fetchKeyFromUrl net cached url true = (Except.error FetchErr.nonHttps, []) := by
  simp [fetchKeyFromUrl, h]

theorem https_only_invariant_witness :
    fetchKeyFromUrl (fun _ => none) none (pstr "http://example.com/key.pem") true
      = (Except.error FetchErr.nonHttps, []) :=
  https_only_invariant (fun _ => none) none (pstr "http://example.com/key.pem")
    (by decide)

/-- C5: `_load_private_key` never resolves a private key from the network:
for a private-key source of any URL form the resolution fails immediately
(the private-key slot stays `none`) and the list of network requests issued
is empty — whatever the filesystem, path expansion, format validation and
PEM parser do. -/
theorem private_key_url_rejected (fs : FsPath → Option Bytes)
    (expand : FsPath → FsPath) (validate : Bytes → Bool)
    (parse : Bytes → Option Bytes → Option PrivKey)
    (s : FsPath) (password : Option Bytes) (h : isUrl s = true) :
    loadPrivateKey fs expand validate parse (some s) password = (none, []) := by
  unfold loadPrivateKey
  by_cases hfs : (fs (expand s)).isNone
  · simp [hfs]
  · simp [hfs, h]

theorem private_key_url_rejected_witness :
    loadPrivateKey (fun _ => some [1]) id (fun _ => true) (fun _ _ => none)
      (some (pstr "https://example.com/private.pem")) none = (none, []) :=
  private_key_url_rejected (fun _ => some [1]) id (fun _ => true)
    (fun _ _ => none) (pstr "https://example.com/private.pem") none (by decide)

/-- C6: with no password configured, a raw symmetric key blob shorter than
32 bytes loads as the blob right-padded with zero bytes to 32 bytes, a blob
longer than 32 bytes loads as its first 32 bytes, the loaded key is always
exactly 32 bytes, and the loaded key is usable: encrypting and then
decrypting a file with it reproduces the plaintext whenever the AEAD
primitive is correct on it. -/
theorem key_length_normalization (key_data : Bytes) :
    (normalizeSymmetricKey key_data).length = 32
    ∧ (key_data.length < 32 →
        normalizeSymmetricKey key_data
          = key_data ++ List.replicate (32 - key_data.length) 0)
    ∧ (32 < key_data.length →
        normalizeSymmetricKey key_data = key_data.take 32)
    ∧ ∀ (aead : AEAD) (iv sk pt : Bytes) (d d' : FsPath), iv.length = 12 →
        aead.dec (normalizeSymmetricKey key_data) iv
            (aead.enc (normalizeSymmetricKey key_data) iv pt) = some pt →
        encryptFile aead (symMgr (normalizeSymmetricKey key_data)) (some pt)
            iv sk d none
          = (true, [Event.mkdir (parentOf d),
              Event.write d (iv ++ aead.enc (normalizeSymmetricKey key_data) iv pt)])
        ∧ decryptFile aead (symMgr (normalizeSymmetricKey key_data))
            (iv ++ aead.enc (normalizeSymmetricKey key_data) iv pt) d' none
          = (true, [Event.mkdir (parentOf d'), Event.write d' pt]) := by
  refine ⟨?_, fun h => by simp [normalizeSymmetricKey, h], fun h => ?_, ?_⟩
  · unfold normalizeSymmetricKey
    split
    · simp
      omega
    · split
      · simp
        omega
      · omega
  · have h1 : ¬ key_data.length < 32 := by omega
    simp [normalizeSymmetricKey, h1, h]
  · intro aead iv sk pt d d' h12 hdec
    refine ⟨encryptFile_symMgr aead _ pt iv sk d, ?_⟩
    rw [decryptFile_symMgr aead _ iv _ d' h12, hdec]

theorem key_length_normalization_witness :
    normalizeSymmetricKey (List.replicate 10 7)
      = List.replicate 10 7 ++ List.replicate 22 0 :=
  (key_length_normalization (List.replicate 10 7)).2.1 (by simp)

/-- C7: `encrypt_backup` computes its destination by appending the literal
`.enc` suffix to the input directory name; when the underlying directory
encryption succeeds it returns that destination (which always differs from
the input path), and when it fails it returns the original, unmodified
input path instead of raising, so the caller detects failure by comparing
the returned path with the input. -/
theorem encrypt_backup_contract (backup_dir : FPath) (runEnc : FPath → Bool) :
    (runEnc ⟨backup_dir.parent, backup_dir.name ++ encSuffix⟩ = true →
      encryptBackup backup_dir runEnc
          = ⟨backup_dir.parent, backup_dir.name ++ encSuffix⟩
      ∧ encryptBackup backup_dir runEnc ≠ backup_dir)
    ∧ (runEnc ⟨backup_dir.parent, backup_dir.name ++ encSuffix⟩ = false →
      encryptBackup backup_dir runEnc = backup_dir) := by
  refine ⟨fun h => ?_, fun h => by simp [encryptBackup, h]⟩
  have he : encryptBackup backup_dir runEnc
      = ⟨backup_dir.parent, backup_dir.name ++ encSuffix⟩ := by
    simp [encryptBackup, h]
  refine ⟨he, ?_⟩
  rw [he]
  intro hEq
  have hname : backup_dir.name ++ encSuffix = backup_dir.name :=
    congrArg FPath.name hEq
  have := congrArg List.length hname
  simp [encSuffix, pstr] at this

theorem encrypt_backup_contract_witness :
    encryptBackup ⟨pstr "backups", pstr "daily"⟩ (fun _ => true)
      = ⟨pstr "backups", pstr "daily" ++ encSuffix⟩ :=
  ((encrypt_backup_contract ⟨pstr "backups", pstr "daily"⟩ (fun _ => true)).1 rfl).1

/-- C8: `decrypt_backup` on a directory that lacks the
`encryption_metadata.json` marker returns exactly the input path and
performs no filesystem effect at all — no file is written and no directory
is created. -/
theorem decrypt_backup_idempotent (backup_dir : FPath)
    (runDec : FPath → Bool × List Event) :
    decryptBackup false backup_dir runDec = (backup_dir, []) := rfl

/-- C10: `decrypt_file` writes nothing when it fails: whenever the call
returns the `False` outcome — too-short input, missing key, or an
authentication/decryption error — its write trace is empty (no destination
file written, no parent directory created), and a call that returns `True`
writes exactly the mkdir of the destination parent followed by the
decrypted plaintext at the destination. -/
theorem decrypt_file_atomic (aead : AEAD) (mgr : Manager) (data : Bytes)
    (d : FsPath) (keyArg : Option Bytes) :
    ((decryptFile aead mgr data d keyArg).1 = false →
      (decryptFile aead mgr data d keyArg).2 = [])
    ∧ ((decryptFile aead mgr data d keyArg).1 = true →
      ∃ pt, decryptFile aead mgr data d keyArg
        = (true, [Event.mkdir (parentOf d), Event.write d pt])) := by
  rcases decryptFile_cases aead mgr data d keyArg with h | ⟨pt, h⟩ <;>
    rw [h] <;> constructor <;> intro hb <;> simp_all

/-- C3: with a private key configured, `decrypt_file` takes the
asymmetric-unwrap path exactly when the first 4 bytes, read as a big-endian
length `L`, satisfy `0 < L < 1024`, the buffer holds at least `4 + L + 12`
bytes, and the OAEP unwrap of bytes `4 .. 4+L` succeeds; in that case the
buffer is decrypted from offset `4 + L` with the unwrapped session key.
When any of these conditions fails — in particular after a spurious,
failing unwrap attempt on a symmetric-only file — the call behaves exactly
as it would with no private key configured: the buffer is interpreted from
offset 0 as a 12-byte IV followed by ciphertext and decrypted with the
symmetric key. -/
theorem decrypt_heuristic_fallback (aead : AEAD) (mgr : Manager)
    (sk : PrivKey) (hpriv : mgr.private_key = some sk) (data : Bytes)
    (d : FsPath) :
    ((sessionKeyHeuristic mgr data).isSome ↔
      ((mgr.method = Method.asymmetric ∨ mgr.method = Method.both)
        ∧ 4 ≤ data.length
        ∧ 0 < fromBytesBE (data.take 4)
        ∧ fromBytesBE (data.take 4) < 1024
        ∧ 4 + fromBytesBE (data.take 4) + 12 ≤ data.length
        ∧ (sk.unwrap ((data.drop 4).take (fromBytesBE (data.take 4)))).isSome))
    ∧ (∀ kk off, sessionKeyHeuristic mgr data = some (kk, off) →
        off = 4 + fromBytesBE (data.take 4)
        ∧ sk.unwrap ((data.drop 4).take (fromBytesBE (data.take 4))) = some kk
        ∧ decryptFile aead mgr data d none =
            (match aead.dec kk ((data.drop off).take 12) (data.drop (off + 12)) with
             | some pt => (true, [Event.mkdir (parentOf d), Event.write d pt])
             | none => (false, [])))
    ∧ (sessionKeyHeuristic mgr data = none →
        decryptFile aead mgr data d none
          = decryptFile aead ⟨mgr.method, mgr.symmetric_key, mgr.public_key, none⟩
              data d none) := by
  refine ⟨?_, ?_, ?_⟩
  · simp only [sessionKeyHeuristic, hpriv]
    constructor
    · intro h
      by_cases h1 : (mgr.method = Method.asymmetric ∨ mgr.method = Method.both)
          ∧ 4 ≤ data.length
      · rw [if_pos h1] at h
        by_cases h2 : 0 < fromBytesBE (data.take 4)
            ∧ fromBytesBE (data.take 4) < 1024
            ∧ 4 + fromBytesBE (data.take 4) + 12 ≤ data.length
        · rw [if_pos h2] at h
          rcases hu : sk.unwrap ((data.drop 4).take (fromBytesBE (data.take 4)))
            with _ | kk
          · rw [hu] at h
            simp at h
          · exact ⟨h1.1, h1.2, h2.1, h2.2.1, h2.2.2, by simp [hu]⟩
        · rw [if_neg h2] at h
          simp at h
      · rw [if_neg h1] at h
        simp at h
    · rintro ⟨hm, hlen, hp, hlt, hsz, hu⟩
      rw [if_pos ⟨hm, hlen⟩, if_pos ⟨hp, hlt, hsz⟩]
      rcases Option.isSome_iff_exists.mp hu with ⟨kk, hkk⟩
      simp [hkk]
  · intro kk off h
    have hh := h
    simp only [sessionKeyHeuristic, hpriv] at hh
    by_cases h1 : (mgr.method = Method.asymmetric ∨ mgr.method = Method.both)
        ∧ 4 ≤ data.length
    · rw [if_pos h1] at hh
      by_cases h2 : 0 < fromBytesBE (data.take 4)
          ∧ fromBytesBE (data.take 4) < 1024
          ∧ 4 + fromBytesBE (data.take 4) + 12 ≤ data.length
      · rw [if_pos h2] at hh
        rcases hu : sk.unwrap ((data.drop 4).take (fromBytesBE (data.take 4)))
          with _ | kk'
        · rw [hu] at hh
          exact absurd hh (by simp)
        · rw [hu] at hh
          simp only [Option.some.injEq, Prod.mk.injEq] at hh
          obtain ⟨hkk, hoff⟩ := hh
          subst hkk
          refine ⟨hoff.symm, by simp [hu], ?_⟩
          have hne12 : ¬ data.length < 12 := by omega
          have hne2 : ¬ data.length < off + 12 := by omega
          simp only [decryptFile, if_neg hne12, h, if_neg hne2]
          cases aead.dec kk' ((data.drop off).take 12) (data.drop (off + 12)) <;> rfl
      · rw [if_neg h2] at hh
        exact absurd hh (by simp)
    · rw [if_neg h1] at hh
      exact absurd hh (by simp)
  · intro h
    have h0 : sessionKeyHeuristic
        ⟨mgr.method, mgr.symmetric_key, mgr.public_key, none⟩ data = none := rfl
    simp only [decryptFile, h, h0]

theorem decrypt_heuristic_fallback_witness :
    decryptFile toyAead ⟨Method.both, some [2], none, some ⟨fun _ => none⟩⟩
        ([0, 0, 0, 8] ++ List.replicate 20 1) (pstr "out") none
      = decryptFile toyAead ⟨Method.both, some [2], none, none⟩
        ([0, 0, 0, 8] ++ List.replicate 20 1) (pstr "out") none :=
  (decrypt_heuristic_fallback toyAead
    ⟨Method.both, some [2], none, some ⟨fun _ => none⟩⟩ ⟨fun _ => none⟩ rfl
    ([0, 0, 0, 8] ++ List.replicate 20 1) (pstr "out")).2.2 (by decide)

/-- C9: in every run of `encrypt_directory`, the metadata file is written
at the destination root only after every file of the walk has been
encrypted successfully, and then as the very last write of the run; if
encrypting any file fails, the run returns failure, the metadata file is
never written, and the write trace consists exactly of the blocks of the
files encrypted before the first failure, which remain on disk as partial
output. -/
theorem metadata_written_last (aead : AEAD) (mgr : Manager)
    (tree : List (FsPath × Option Bytes)) (ivs sks : Nat → Bytes)
    (meta : Bytes) :
    ((encryptDirectory aead mgr tree ivs sks meta).1 = true →
      (∀ j, j < tree.length →
        (encryptFile aead mgr (tree.getD j ([], none)).2 (ivs j) (sks j)
          ((tree.getD j ([], none)).1 ++ encSuffix) none).1 = true)
      ∧ ∃ evs, (encryptDirectory aead mgr tree ivs sks meta).2
            = evs ++ [Event.writeMeta meta]
          ∧ ∀ d, Event.writeMeta d ∉ evs)
    ∧ ((encryptDirectory aead mgr tree ivs sks meta).1 = false →
      (∀ d, Event.writeMeta d ∉ (encryptDirectory aead mgr tree ivs sks meta).2)
      ∧ ∃ n, n < tree.length
          ∧ (∀ j, j < n →
              (encryptFile aead mgr (tree.getD j ([], none)).2 (ivs j) (sks j)
                ((tree.getD j ([], none)).1 ++ encSuffix) none).1 = true)
          ∧ (encryptFile aead mgr (tree.getD n ([], none)).2 (ivs n) (sks n)
              ((tree.getD n ([], none)).1 ++ encSuffix) none).1 = false
          ∧ (encryptDirectory aead mgr tree ivs sks meta).2 =
              Event.mkdirRoot :: ((List.range n).map (fun j =>
                encBlockEvents aead mgr ivs sks (tree.getD j ([], none)) j)).flatten
                ++ [Event.mkdir (parentOf ((tree.getD n ([], none)).1 ++ encSuffix))]) := by
  rcases encryptWalk_run aead mgr ivs sks tree 0
    with ⟨hw, hall⟩ | ⟨n, hn, hpre, hfail, hwf, htr⟩
  · constructor
    · intro _
      refine ⟨fun j hj => by simpa using hall j hj,
        Event.mkdirRoot :: (encryptWalk aead mgr ivs sks tree 0).2, ?_, ?_⟩
      · simp [encryptDirectory, hw]
      · intro d hd
        rcases List.mem_cons.mp hd with h | h
        · exact Event.noConfusion h
        · exact encryptWalk_no_meta aead mgr ivs sks tree 0 d h
    · intro hfalse
      rw [encryptDirectory] at hfalse
      simp [hw] at hfalse
  · constructor
    · intro htrue
      rw [encryptDirectory] at htrue
      simp [hwf] at htrue
    · intro _
      refine ⟨?_, n, hn, fun j hj => by simpa using hpre j hj,
        by simpa using hfail, ?_⟩
      · intro d hd
        rw [encryptDirectory] at hd
        simp only [hwf, Bool.false_eq_true, if_false] at hd
        rcases List.mem_cons.mp hd with h | h
        · exact Event.noConfusion h
        · exact encryptWalk_no_meta aead mgr ivs sks tree 0 d h
      · rw [encryptDirectory]
        simp only [hwf, Bool.false_eq_true, if_false, htr]
        simp

theorem metadata_written_last_witness :
    (encryptDirectory toyAead (symMgr [3])
        [(pstr "a.txt", some [1]), (pstr "b.txt", none)]
        (fun _ => List.replicate 12 0) (fun _ => []) [9]).2
      = Event.mkdirRoot :: encBlockEvents toyAead (symMgr [3])
          (fun _ => List.replicate 12 0) (fun _ => []) (pstr "a.txt", some [1]) 0
          ++ [Event.mkdir (parentOf (pstr "b.txt" ++ encSuffix))] := by
  obtain ⟨hnm, n, hlt, hpre, hfail, htr⟩ :=
    (metadata_written_last toyAead (symMgr [3])
      [(pstr "a.txt", some [1]), (pstr "b.txt", none)]
      (fun _ => List.replicate 12 0) (fun _ => []) [9]).2 (by decide)
  match n, hlt with
  | 0, _ => exact absurd hfail (by decide)
  | 1, _ =>
      rw [htr]
      decide

theorem decrypt_file_atomic_witness :
    (decryptFile toyAead (symMgr [1]) [0, 1, 2] (pstr "out.txt") none).2 = [] :=
  (decrypt_file_atomic toyAead (symMgr [1]) [0, 1, 2] (pstr "out.txt") none).1
    (by decide)

/-! ### Round-trip machinery -/

theorem encSuffix_eq : encSuffix = ['.', 'e', 'n', 'c'] := by decide

theorem take_append_enc (p : FsPath) :
    (p ++ encSuffix).take ((p ++ encSuffix).length - 4) = p := by
  have h : (p ++ encSuffix).length - 4 = p.length := by
    simp [encSuffix_eq]
  rw [h, List.take_left]

theorem basename_append_enc (p : FsPath) :
    basenameP (p ++ encSuffix) = basenameP p ++ encSuffix := by
  simp [basenameP, encSuffix_eq, List.reverse_append, List.takeWhile_cons]

theorem endsEnc_append (q : FsPath) : endsEnc (q ++ encSuffix) = true := by
  simp only [endsEnc, encSuffix_eq, List.reverse_append]
  rfl

theorem append_enc_ne_meta (q : FsPath) : q ++ encSuffix ≠ metaName := by
  intro h
  have h2 := congrArg List.reverse h
  rw [List.reverse_append] at h2
  simp [encSuffix_eq, metaName, pstr] at h2

theorem basename_meta : basenameP metaName = metaName := by decide

theorem encryptWalk_symMgr (aead : AEAD) (k : Bytes) (ivs sks : Nat → Bytes) :
    ∀ (tree : List (FsPath × Bytes)) (i : Nat),
      encryptWalk aead (symMgr k) ivs sks (tree.map fun pc => (pc.1, some pc.2)) i
        = (true, symWalkEvents aead k ivs tree i) := by
  intro tree
  induction tree with
  | nil => intro i; rfl
  | cons pc rest ih =>
      intro i
      obtain ⟨p, c⟩ := pc
      simp only [List.map_cons, encryptWalk, encryptFile_symMgr, ih (i + 1),
        symWalkEvents]
      rfl

theorem filesOf_symWalkEvents (aead : AEAD) (k : Bytes) (ivs : Nat → Bytes) :
    ∀ (tree : List (FsPath × Bytes)) (i : Nat),
      filesOf (symWalkEvents aead k ivs tree i) = symEncFiles aead k ivs tree i := by
  intro tree
  induction tree with
  | nil => intro i; rfl
  | cons pc rest ih =>
      intro i
      obtain ⟨p, c⟩ := pc
      simp [symWalkEvents, symEncFiles, filesOf, List.filterMap_cons, ← ih (i + 1)]

theorem map_fst_symEncFiles (aead : AEAD) (k : Bytes) (ivs : Nat → Bytes) :
    ∀ (tree : List (FsPath × Bytes)) (i : Nat),
      (symEncFiles aead k ivs tree i).map Prod.fst
        = tree.map (fun pc => pc.1 ++ encSuffix) := by
  intro tree
  induction tree with
  | nil => intro i; rfl
  | cons pc rest ih =>
      intro i
      obtain ⟨p, c⟩ := pc
      simp [symEncFiles, ih (i + 1)]

theorem decryptWalk_symEncFiles (aead : AEAD) (k : Bytes) (ivs : Nat → Bytes)
    (hc : ∀ iv pt, aead.dec k iv (aead.enc k iv pt) = some pt)
    (hiv : ∀ i, (ivs i).length = 12) :
    ∀ (tree : List (FsPath × Bytes)) (i : Nat),
      decryptWalk aead (symMgr k) (symEncFiles aead k ivs tree i)
        = (true, symDecEvents tree) := by
  intro tree
  induction tree with
  | nil => intro i; rfl
  | cons pc rest ih =>
      intro i
      obtain ⟨p, c⟩ := pc
      have hm : ¬ basenameP (p ++ encSuffix) = metaName := by
        rw [basename_append_enc]
        exact append_enc_ne_meta (basenameP p)
      have he : endsEnc (basenameP (p ++ encSuffix)) = true := by
        rw [basename_append_enc]
        exact endsEnc_append (basenameP p)
      have hd : decryptFile aead (symMgr k)
          (ivs i ++ aead.enc k (ivs i) c) p none
          = (true, [Event.mkdir (parentOf p), Event.write p c]) := by
        rw [decryptFile_symMgr aead k _ _ p (hiv i), hc]
      simp only [symEncFiles, decryptWalk, if_neg hm, he, if_pos,
        take_append_enc, hd, ih (i + 1), symDecEvents]
      simp

theorem filesOf_symDecEvents :
    ∀ tree : List (FsPath × Bytes), filesOf (symDecEvents tree) = tree := by
  intro tree
  induction tree with
  | nil => rfl
  | cons pc rest ih =>
      obtain ⟨p, c⟩ := pc
      simp [symDecEvents, filesOf, List.filterMap_cons] at ih ⊢
      exact ih

theorem decryptWalk_append (aead : AEAD) (mgr : Manager) :
    ∀ l1 l2 : List (FsPath × Bytes), (decryptWalk aead mgr l1).1 = true →
      decryptWalk aead mgr (l1 ++ l2)
        = ((decryptWalk aead mgr l2).1,
            (decryptWalk aead mgr l1).2 ++ (decryptWalk aead mgr l2).2) := by
  intro l1
  induction l1 with
  | nil => intro l2 _; simp [decryptWalk]
  | cons pc rest ih =>
      intro l2 h
      obtain ⟨name, data⟩ := pc
      by_cases hm : basenameP name = metaName
      · simp only [decryptWalk, List.cons_append, if_pos hm] at h ⊢
        exact ih l2 h
      · by_cases he : endsEnc (basenameP name) = true
        · cases hr : (decryptFile aead mgr data (name.take (name.length - 4)) none).1
          · exfalso
            simp only [decryptWalk, if_neg hm, he, if_pos] at h
            rw [hr] at h
            simp at h
          · simp only [decryptWalk, List.cons_append, List.append_eq,
              if_neg hm, he, if_pos] at h ⊢
            rw [hr] at h ⊢
            simp only [if_true]
            simp only [if_true] at h
            rw [ih l2 h]
            simp
        · simp only [decryptWalk, List.cons_append, if_neg hm, he] at h ⊢
          simp only [Bool.false_eq_true, if_false] at h ⊢
          exact ih l2 h

theorem decryptWalk_meta (aead : AEAD) (mgr : Manager) (meta : Bytes) :
    decryptWalk aead mgr [(metaName, meta)] = (true, []) := by
  simp [decryptWalk, basename_meta]

/-- C1: round-trip in symmetric mode.  Per file: `encrypt_file` writes
`IV ++ ciphertext` and `decrypt_file` of that output with the same key
reproduces the plaintext byte-for-byte (given a correct AEAD primitive and
the 12-byte IVs that `secrets.token_bytes(12)` yields).  Per directory:
`encrypt_directory` succeeds, mapping every source file 1:1 to an output
file named source relative path plus the `.enc` suffix (plus the metadata
file), and `decrypt_directory` of that output reproduces exactly the
original (path, content) pairs — including empty files and files of
exactly 32 bytes, which are just particular plaintext values here. -/
theorem roundtrip_symmetric (aead : AEAD) (k : Bytes) (_hk : k.length = 32)
    (hc : ∀ iv pt, aead.dec k iv (aead.enc k iv pt) = some pt)
    (ivs sks : Nat → Bytes) (hiv : ∀ i, (ivs i).length = 12)
    (tree : List (FsPath × Bytes)) (meta : Bytes)
    (pt iv sk : Bytes) (h12 : iv.length = 12) (d d' : FsPath) :
    (encryptFile aead (symMgr k) (some pt) iv sk d none
        = (true, [Event.mkdir (parentOf d), Event.write d (iv ++ aead.enc k iv pt)])
      ∧ decryptFile aead (symMgr k) (iv ++ aead.enc k iv pt) d' none
        = (true, [Event.mkdir (parentOf d'), Event.write d' pt]))
    ∧ (encryptDirectory aead (symMgr k) (tree.map fun pc => (pc.1, some pc.2))
        ivs sks meta).1 = true
    ∧ (filesOf (encryptDirectory aead (symMgr k)
          (tree.map fun pc => (pc.1, some pc.2)) ivs sks meta).2).map Prod.fst
        = tree.map (fun pc => pc.1 ++ encSuffix) ++ [metaName]
    ∧ (decryptDirectory aead (symMgr k)
        (filesOf (encryptDirectory aead (symMgr k)
          (tree.map fun pc => (pc.1, some pc.2)) ivs sks meta).2)).1 = true
    ∧ filesOf (decryptDirectory aead (symMgr k)
        (filesOf (encryptDirectory aead (symMgr k)
          (tree.map fun pc => (pc.1, some pc.2)) ivs sks meta).2)).2
        = tree := by
  have hfile : decryptFile aead (symMgr k) (iv ++ aead.enc k iv pt) d' none
      = (true, [Event.mkdir (parentOf d'), Event.write d' pt]) := by
    rw [decryptFile_symMgr aead k iv _ d' h12, hc]
  have hdir : encryptDirectory aead (symMgr k)
      (tree.map fun pc => (pc.1, some pc.2)) ivs sks meta
      = (true, Event.mkdirRoot :: symWalkEvents aead k ivs tree 0
          ++ [Event.writeMeta meta]) := by
    simp [encryptDirectory, encryptWalk_symMgr aead k ivs sks tree 0]
  have hfiles : filesOf (encryptDirectory aead (symMgr k)
      (tree.map fun pc => (pc.1, some pc.2)) ivs sks meta).2
      = symEncFiles aead k ivs tree 0 ++ [(metaName, meta)] := by
    rw [hdir]
    simp [filesOf, List.filterMap_append, List.filterMap_cons,
      ← filesOf_symWalkEvents aead k ivs tree 0]
  have hwalk : decryptWalk aead (symMgr k)
      (symEncFiles aead k ivs tree 0 ++ [(metaName, meta)])
      = (true, symDecEvents tree) := by
    rw [decryptWalk_append aead (symMgr k) _ _
        (by rw [decryptWalk_symEncFiles aead k ivs hc hiv tree 0]),
      decryptWalk_symEncFiles aead k ivs hc hiv tree 0,
      decryptWalk_meta aead (symMgr k) meta]
    simp
  refine ⟨⟨encryptFile_symMgr aead k pt iv sk d, hfile⟩, ?_, ?_, ?_, ?_⟩
  · rw [hdir]
  · rw [hfiles]
    simp [map_fst_symEncFiles aead k ivs tree 0]
  · rw [hfiles]
    simp [decryptDirectory, hwalk]
  · rw [hfiles]
    simp [decryptDirectory, hwalk, filesOf, List.filterMap_cons]
    rw [← filesOf]
    exact filesOf_symDecEvents tree

theorem roundtrip_symmetric_witness :
    filesOf (decryptDirectory toyAead (symMgr (List.replicate 32 1))
        (filesOf (encryptDirectory toyAead (symMgr (List.replicate 32 1))
          (([(pstr "a.txt", [104, 101, 108, 108, 111]),
             (pstr "sub/b.txt", []),
             (pstr "c.bin", List.replicate 32 7)]).map fun pc => (pc.1, some pc.2))
          (fun _ => List.replicate 12 0) (fun _ => []) [2]).2)).2
      = [(pstr "a.txt", [104, 101, 108, 108, 111]),
         (pstr "sub/b.txt", []),
         (pstr "c.bin", List.replicate 32 7)] :=
  (roundtrip_symmetric toyAead (List.replicate 32 1) (by simp)
    (fun iv pt => toy_roundtrip (List.replicate 32 1) iv pt)
    (fun _ => List.replicate 12 0) (fun _ => []) (fun _ => by simp)
    [(pstr "a.txt", [104, 101, 108, 108, 111]),
     (pstr "sub/b.txt", []),
     (pstr "c.bin", List.replicate 32 7)] [2]
    [] (List.replicate 12 0) [] (by simp) (pstr "x") (pstr "y")).2.2.2.2

end BBackup
